import Mathlib

/-!
Verification of the sayit text-to-speech pipeline (src/main.rs).

The file shallowly embeds the three algorithmic pieces of the program and
proves the spec's properties about them:

* the chunker `split_input` (lines 68-89),
* the reorder loop of `play_audio_from_queue` (lines 130-151), which drains a
  `HashMap` pending-buffer with a `next_index` cursor,
* the file writer `audio_to_output_file` (lines 153-158).

Rust byte strings are modelled as byte lists (`List Nat`); Rust `str::len`
counts bytes, so `List.length` matches it.  Whitespace is modelled by the
ASCII whitespace bytes.  Audio payloads (`Bytes`) are also byte lists.
-/

namespace Sayit

/-! ### Chunker: `split_input`, src/main.rs lines 68-89 -/

abbrev Str := List Nat

def isWsByte (b : Nat) : Bool := b == 32 || b == 9 || b == 10 || b == 13

/-- Model of `str::split_whitespace`: the maximal runs of non-whitespace bytes. -/
def splitWsAux : Str → Str → List Str
  | [], acc => if acc.isEmpty then [] else [acc.reverse]
  | b :: rest, acc =>
    if isWsByte b then
      if acc.isEmpty then splitWsAux rest [] else acc.reverse :: splitWsAux rest []
    else splitWsAux rest (b :: acc)

def split_whitespace (s : Str) : List Str := splitWsAux s []

/-- Rust `Vec::<String>::join(" ")`; byte 32 is the space. -/
def joinSpace : List Str → Str
  | [] => []
  | [w] => w
  | w :: x :: ws => w ++ 32 :: joinSpace (x :: ws)

/-- The `for word in ...` loop of `split_input` (lines 73-82) together with the
final non-empty push after the loop (lines 84-86).  `cur` is `current_chunk`,
`curLen` is `current_length`. -/
def splitLoop (L : Nat) : List Str → List Str → Nat → List Str
  | [], cur, _ => if cur.isEmpty then [] else [joinSpace cur]
  | w :: rest, cur, curLen =>
    if curLen + w.length + 1 > L then
      joinSpace cur :: splitLoop L rest [w] w.length
    else
      splitLoop L rest (cur ++ [w]) (curLen + w.length + 1)

/-- The function `split_input` (lines 68-89). -/
def split_input (input_text : Str) (max_length : Nat) : List Str :=
  splitLoop max_length (split_whitespace input_text) [] 0

/-! ### Reorder loop: `play_audio_from_queue`, src/main.rs lines 130-151

The `HashMap<usize, Bytes>` buffer is modelled as an association list with
`HashMap`-style insert (replace any existing binding) and remove. -/

abbrev Frag := List Nat

def mapErase (m : List (Nat × Frag)) (k : Nat) : List (Nat × Frag) :=
  m.filter (fun e => e.1 != k)

/-- Model of `HashMap::insert` (line 137): any existing binding is replaced. -/
def mapInsert (m : List (Nat × Frag)) (k : Nat) (v : Frag) : List (Nat × Frag) :=
  (k, v) :: mapErase m k

/-- The inner `while let Some(bytes) = buffer.remove(&next_index)` loop
(lines 138-146): repeatedly remove the cursor's entry and advance the cursor.
The loop is bounded by the buffer size: every iteration removes one entry, so
`fuel = m.length` never cuts the loop short — `drain_sound` proves the exit
condition (`lookup` of the final cursor is `none`) really holds at exit.
Returns (released pairs in release order, remaining buffer, final cursor). -/
def drainAux : Nat → List (Nat × Frag) → Nat → List (Nat × Frag) × List (Nat × Frag) × Nat
  | 0, m, n => ([], m, n)
  | fuel + 1, m, n =>
    match List.lookup n m with
    | none => ([], m, n)
    | some b =>
      let r := drainAux fuel (mapErase m n) (n + 1)
      ((n, b) :: r.1, r.2.1, r.2.2)

def drain (m : List (Nat × Frag)) (n : Nat) : List (Nat × Frag) × List (Nat × Frag) × Nat :=
  drainAux m.length m n

/-- The local state `buffer` and `next_index` (lines 133-134). -/
structure PlayerState where
  pending : List (Nat × Frag)
  next_index : Nat
deriving DecidableEq

/-- One iteration of the outer `while let Some((index, bytes)) =
audio_rx.blocking_recv()` loop (lines 136-147): insert the arrival, then drain. -/
def playStep (s : PlayerState) (a : Nat × Frag) : List (Nat × Frag) × PlayerState :=
  let r := drain (mapInsert s.pending a.1 a.2) s.next_index
  (r.1, ⟨r.2.1, r.2.2⟩)

/-- The outer receive loop run over a whole channel history (the list of
`(index, bytes)` pairs in arrival order; the list ending is channel closure). -/
def playRun (s : PlayerState) : List (Nat × Frag) → List (Nat × Frag) × PlayerState
  | [] => ([], s)
  | a :: rest =>
    let p := playStep s a
    let q := playRun p.2 rest
    (p.1 ++ q.1, q.2)

/-- The function `play_audio_from_queue` (lines 130-151) viewed as a function of the channel
history: the fragments it releases (in release order) and its final state. -/
def play_audio_from_queue (arrivals : List (Nat × Frag)) : List (Nat × Frag) × PlayerState :=
  playRun ⟨[], 0⟩ arrivals

/-- The sequence of fragments released to the decode-and-play code, in order. -/
def releases (arrivals : List (Nat × Frag)) : List (Nat × Frag) :=
  (play_audio_from_queue arrivals).1

def releasedAfter (arrivals : List (Nat × Frag)) (k : Nat) : List (Nat × Frag) :=
  (play_audio_from_queue (arrivals.take k)).1

def stateAfter (arrivals : List (Nat × Frag)) (k : Nat) : PlayerState :=
  (play_audio_from_queue (arrivals.take k)).2

/-! ### Playback events (lines 138-146)

For each released fragment the loop builds `Decoder::new_mp3(cursor)`; on `Ok`
it plays the decoded source to completion, and the `Err` case has no branch at
all — nothing is logged or played.  `next_index` advances either way.  The
decoder is an external collaborator, modelled by a predicate `dec` on the raw
bytes (`Decoder::new_mp3` is a pure function of the bytes it is given).
`PlayerEvent.reported` is the report action a player could take; the embedded
code never emits it, mirroring the absent `Err` branch. -/

inductive PlayerEvent
  | played : Nat → Frag → PlayerEvent
  | reported : Nat → PlayerEvent
deriving DecidableEq

def isReportedEvent : PlayerEvent → Bool
  | PlayerEvent.played _ _ => false
  | PlayerEvent.reported _ => true

/-- The observable playback actions of `play_audio_from_queue`: decoding and
playing touches neither `buffer` nor `next_index`, so the event trace is the
release sequence filtered through the decoder. -/
def playerEvents (arrivals : List (Nat × Frag)) (dec : Frag → Bool) : List PlayerEvent :=
  (releases arrivals).filterMap
    (fun p => if dec p.2 then some (PlayerEvent.played p.1 p.2) else none)

/-! ### File writer: `audio_to_output_file`, src/main.rs lines 153-158 -/

inductive WriterOutcome
  | ok
  | fatal
deriving DecidableEq

/-- The function `audio_to_output_file` (lines 153-158): receives `(index, bytes)` pairs in
channel order, ignores the index (`_index`), and appends the bytes with
`write_all`; the `unwrap` aborts the task on a write error, so nothing further
is written.  `writeOk j` models whether the j-th `write_all` call succeeds
(the file sink collaborator: `append(bytes) -> success | error`); `pos` counts
the writes already performed.  Returns (file contents, outcome). -/
def audio_to_output_file : List (Nat × Frag) → Nat → (Nat → Bool) → Frag × WriterOutcome
  | [], _, _ => ([], WriterOutcome.ok)
  | (_, b) :: rest, pos, writeOk =>
    if writeOk pos then
      let r := audio_to_output_file rest (pos + 1) writeOk
      (b ++ r.1, r.2)
    else ([], WriterOutcome.fatal)

/-! ### Response format handling, src/main.rs lines 48-55, 190-197, 240-244 -/

inductive ResponseFormat
  | Opus
  | Aac
  | Flac
  | Pcm
  | Mp3
deriving DecidableEq

/-- The match computing `output_file_format` (lines 190-197). -/
def output_file_format : Option ResponseFormat → String
  | some ResponseFormat.Opus => "opus"
  | some ResponseFormat.Aac => "aac"
  | some ResponseFormat.Flac => "flac"
  | some ResponseFormat.Pcm => "pcm"
  | some ResponseFormat.Mp3 => "mp3"
  | none => "mp3"

/-- The playback branch of `main` (lines 240-244): `play_audio_from_queue`
receives only the channel receiver; the configured format shapes only the HTTP
request body (line 114) and is not passed to the consumer. -/
def mainPlayer (format : Option ResponseFormat) (arrivals : List (Nat × Frag))
    (dec : Frag → Bool) : List PlayerEvent :=
  playerEvents arrivals dec

/-! ## Chunker lemmas -/

theorem joinSpace_cons_cons (w x : Str) (ws : List Str) :
    joinSpace (w :: x :: ws) = w ++ 32 :: joinSpace (x :: ws) := rfl

theorem joinSpace_append (xs : List Str) (hx : xs ≠ []) (ys : List Str) (hy : ys ≠ []) :
    joinSpace (xs ++ ys) = joinSpace xs ++ 32 :: joinSpace ys := by
  induction xs with
  | nil => exact absurd rfl hx
  | cons x xs ih =>
    cases xs with
    | nil =>
      cases ys with
      | nil => exact absurd rfl hy
      | cons y ys2 => simp [joinSpace]
    | cons x2 xs2 =>
      have h2 := ih (by simp)
      calc joinSpace ((x :: x2 :: xs2) ++ ys)
          = x ++ 32 :: joinSpace ((x2 :: xs2) ++ ys) := rfl
        _ = x ++ 32 :: (joinSpace (x2 :: xs2) ++ 32 :: joinSpace ys) := by rw [h2]
        _ = joinSpace (x :: x2 :: xs2) ++ 32 :: joinSpace ys := by
              rw [joinSpace_cons_cons]; simp

theorem length_joinSpace_append (xs : List Str) (hx : xs ≠ []) (w : Str) :
    (joinSpace (xs ++ [w])).length = (joinSpace xs).length + 1 + w.length := by
  rw [joinSpace_append xs hx [w] (by simp)]
  simp [joinSpace]
  omega

theorem joinSpace_ne_nil (g : List Str) (hg : g ≠ []) (ht : ∀ t ∈ g, t ≠ []) :
    joinSpace g ≠ [] := by
  cases g with
  | nil => exact absurd rfl hg
  | cons w gs =>
    cases gs with
    | nil => exact ht w (by simp)
    | cons x gs2 => simp [joinSpace]

theorem joinSpace_map_join (gs : List (List Str)) (h : ∀ g ∈ gs, g ≠ []) :
    joinSpace (gs.map joinSpace) = joinSpace gs.flatten := by
  induction gs with
  | nil => rfl
  | cons g gs ih =>
    cases gs with
    | nil => simp [joinSpace]
    | cons g2 t =>
      have hg : g ≠ [] := h g (by simp)
      have hj : ((g2 :: t).flatten) ≠ [] := by
        have hg2 : g2 ≠ [] := h g2 (by simp)
        simp [List.flatten]
        intro hcon
        exact absurd hcon hg2
      have ih2 := ih (fun x hx => h x (by simp [hx]))
      calc joinSpace ((g :: g2 :: t).map joinSpace)
          = joinSpace g ++ 32 :: joinSpace ((g2 :: t).map joinSpace) := rfl
        _ = joinSpace g ++ 32 :: joinSpace ((g2 :: t).flatten) := by rw [ih2]
        _ = joinSpace (g ++ (g2 :: t).flatten) := (joinSpace_append g hg _ hj).symm
        _ = joinSpace ((g :: g2 :: t).flatten) := by simp [List.flatten]

/-- Main structural lemma about the word loop: starting from a non-empty
current chunk whose joined length is bounded by `curLen`, the produced chunks
are the space-joins of a partition of `cur ++ ws` into non-empty groups of
consecutive words, and every group either joins to at most `L` bytes or is a
single (possibly oversized) word. -/
theorem splitLoop_spec (L : Nat) (ws : List Str) :
    ∀ (cur : List Str) (curLen : Nat), cur ≠ [] →
    (joinSpace cur).length ≤ curLen → (curLen ≤ L ∨ ∃ w, cur = [w]) →
    ∃ gs : List (List Str),
      splitLoop L ws cur curLen = gs.map joinSpace ∧
      gs.flatten = cur ++ ws ∧
      gs ≠ [] ∧
      (∀ g ∈ gs, g ≠ []) ∧
      (∀ g ∈ gs, (joinSpace g).length ≤ L ∨ ∃ w, g = [w]) := by
  induction ws with
  | nil =>
    intro cur curLen hcur hlen hbound
    refine ⟨[cur], ?_, by simp, by simp, by simpa using hcur, ?_⟩
    · have : cur.isEmpty = false := by
        cases cur with
        | nil => exact absurd rfl hcur
        | cons a as => rfl
      simp [splitLoop, this]
    · intro g hgmem
      simp at hgmem
      subst hgmem
      rcases hbound with h | h
      · exact Or.inl (le_trans hlen h)
      · exact Or.inr h
  | cons w rest ih =>
    intro cur curLen hcur hlen hbound
    by_cases hc : curLen + w.length + 1 > L
    · obtain ⟨gs, heq, hjoin, hne, hgne, hgbd⟩ :=
        ih [w] w.length (by simp) (by simp [joinSpace]) (Or.inr ⟨w, rfl⟩)
      refine ⟨cur :: gs, ?_, ?_, by simp, ?_, ?_⟩
      · simp [splitLoop, hc, heq]
      · simp [List.flatten, hjoin]
      · intro g hg
        rcases List.mem_cons.mp hg with rfl | hg2
        · exact hcur
        · exact hgne g hg2
      · intro g hg
        rcases List.mem_cons.mp hg with rfl | hg2
        · rcases hbound with h | h
          · exact Or.inl (le_trans hlen h)
          · exact Or.inr h
        · exact hgbd g hg2
    · have hfit : curLen + w.length + 1 ≤ L := by omega
      obtain ⟨gs, heq, hjoin, hne, hgne, hgbd⟩ :=
        ih (cur ++ [w]) (curLen + w.length + 1) (by simp)
          (by rw [length_joinSpace_append cur hcur w]; omega)
          (Or.inl hfit)
      refine ⟨gs, ?_, ?_, hne, hgne, hgbd⟩
      · simp [splitLoop, hc, heq]
      · rw [hjoin]; simp

theorem splitWsAux_ne_nil (s : Str) :
    ∀ acc, ∀ w ∈ splitWsAux s acc, w ≠ [] := by
  induction s with
  | nil =>
    intro acc w hw
    cases acc with
    | nil => simp [splitWsAux] at hw
    | cons a as =>
      simp [splitWsAux] at hw
      subst hw
      simp
  | cons b rest ih =>
    intro acc w hw
    by_cases hws : isWsByte b
    · cases acc with
      | nil =>
        simp [splitWsAux, hws] at hw
        exact ih [] w hw
      | cons a as =>
        simp [splitWsAux, hws] at hw
        rcases hw with rfl | hw2
        · simp
        · exact ih [] w hw2
    · simp only [splitWsAux, hws, if_neg, Bool.false_eq_true, not_false_eq_true, if_false] at hw
      exact ih (b :: acc) w hw

theorem split_whitespace_ne_nil (s : Str) : ∀ w ∈ split_whitespace s, w ≠ [] :=
  splitWsAux_ne_nil s []

theorem split_input_eq_nil (s : Str) (L : Nat) (h : split_whitespace s = []) :
    split_input s L = [] := by
  simp [split_input, h, splitLoop]

theorem split_input_eq_overflow (s : Str) (L : Nat) (w : Str) (rest : List Str)
    (h : split_whitespace s = w :: rest) (hw : L < w.length + 1) :
    split_input s L = [] :: splitLoop L rest [w] w.length := by
  have hgt : 0 + w.length + 1 > L := by omega
  simp only [split_input, h, splitLoop]
  rw [if_pos hgt]
  rfl

theorem split_input_eq_fit (s : Str) (L : Nat) (w : Str) (rest : List Str)
    (h : split_whitespace s = w :: rest) (hw : w.length + 1 ≤ L) :
    split_input s L = splitLoop L rest [w] (w.length + 1) := by
  have hgt : ¬ (0 + w.length + 1 > L) := by omega
  simp only [split_input, h, splitLoop]
  rw [if_neg hgt]
  simp

/-! ## Chunker claims -/

/-- C5 (counterexample): the claim "for every input string and every maximum
length L ≥ 1, concatenating the chunk texts with single spaces reconstructs the
whitespace-normalized input" fails on the one-byte input `"a"` with L = 1: the
loop pushes the empty current chunk before resetting, so the chunks are
`["", "a"]` and their join is `" a"`, not `"a"`. -/
theorem chunk_join_cex :
    joinSpace (split_input [97] 1) ≠ joinSpace (split_whitespace [97]) := by decide

/-- C5 (amended): for every input string and every maximum length L ≥ 1 such
that the input's first whitespace-separated token is strictly shorter than L
(in particular whenever the input is empty), concatenating the chunk texts
produced by `split_input` with single spaces reconstructs the whitespace-
normalized input (its tokens joined by single spaces).  When the first token
has length ≥ L the only deviation is a spurious leading empty chunk. -/
theorem chunk_join_amended (s : Str) (L : Nat) (hL : 1 ≤ L)
    (hfit : ((split_whitespace s).headD []).length < L) :
    joinSpace (split_input s L) = joinSpace (split_whitespace s) := by
  cases hws : split_whitespace s with
  | nil => rw [split_input_eq_nil s L hws]
  | cons w rest =>
    rw [hws] at hfit
    simp only [List.headD_cons] at hfit
    have hw : w.length + 1 ≤ L := by omega
    rw [split_input_eq_fit s L w rest hws hw]
    obtain ⟨gs, heq, hjoin, hne, hgne, hgbd⟩ :=
      splitLoop_spec L rest [w] (w.length + 1) (by simp) (by simp [joinSpace]) (Or.inl hw)
    rw [heq, joinSpace_map_join gs hgne, hjoin]
    rfl

theorem chunk_join_amended_witness :
    joinSpace (split_input [97, 98, 32, 99] 4) =
      joinSpace (split_whitespace [97, 98, 32, 99]) :=
  chunk_join_amended [97, 98, 32, 99] 4 (by decide) (by decide)

/-- C6: for every input string and every maximum length L ≥ 1, every chunk
produced by `split_input` either has byte length at most L or is itself a
single whitespace-delimited token of the input whose length exceeds L;
moreover the chunk list is the space-join of a partition of the input's token
list into groups of consecutive tokens, so no chunk splits a token. -/
theorem chunk_length_bound (s : Str) (L : Nat) (hL : 1 ≤ L) :
    (∀ c ∈ split_input s L, c.length ≤ L ∨ (c ∈ split_whitespace s ∧ L < c.length)) ∧
    (∃ gs : List (List Str), gs.flatten = split_whitespace s ∧
      split_input s L = gs.map joinSpace) := by
  cases hws : split_whitespace s with
  | nil =>
    rw [split_input_eq_nil s L hws]
    exact ⟨by simp, ⟨[], by simp [hws], by simp⟩⟩
  | cons w rest =>
    by_cases hw : w.length + 1 ≤ L
    · rw [split_input_eq_fit s L w rest hws hw]
      obtain ⟨gs, heq, hjoin, hne, hgne, hgbd⟩ :=
        splitLoop_spec L rest [w] (w.length + 1) (by simp) (by simp [joinSpace]) (Or.inl hw)
      constructor
      · intro c hc
        rw [heq] at hc
        obtain ⟨g, hg, rfl⟩ := List.mem_map.mp hc
        rcases hgbd g hg with hbd | ⟨w2, rfl⟩
        · exact Or.inl hbd
        · by_cases hlen : (joinSpace [w2]).length ≤ L
          · exact Or.inl hlen
          · refine Or.inr ⟨?_, by omega⟩
            have hmem : w2 ∈ gs.flatten := List.mem_flatten.mpr ⟨[w2], hg, by simp⟩
            rw [hjoin] at hmem
            simpa [joinSpace] using hmem
      · exact ⟨gs, by simp [hjoin], heq⟩
    · rw [split_input_eq_overflow s L w rest hws (by omega)]
      obtain ⟨gs, heq, hjoin, hne, hgne, hgbd⟩ :=
        splitLoop_spec L rest [w] w.length (by simp) (by simp [joinSpace]) (Or.inr ⟨w, rfl⟩)
      constructor
      · intro c hc
        rcases List.mem_cons.mp hc with rfl | hc2
        · exact Or.inl (by simp)
        · rw [heq] at hc2
          obtain ⟨g, hg, rfl⟩ := List.mem_map.mp hc2
          rcases hgbd g hg with hbd | ⟨w2, rfl⟩
          · exact Or.inl hbd
          · by_cases hlen : (joinSpace [w2]).length ≤ L
            · exact Or.inl hlen
            · refine Or.inr ⟨?_, by omega⟩
              have hmem : w2 ∈ gs.flatten := List.mem_flatten.mpr ⟨[w2], hg, by simp⟩
              rw [hjoin] at hmem
              simpa [joinSpace] using hmem
      · exact ⟨[] :: gs, by simp [hjoin], by simp [heq, joinSpace]⟩

theorem chunk_length_bound_witness :
    (∀ c ∈ split_input [97, 98, 32, 99] 2,
      c.length ≤ 2 ∨ (c ∈ split_whitespace [97, 98, 32, 99] ∧ 2 < c.length)) ∧
    (∃ gs : List (List Str), gs.flatten = split_whitespace [97, 98, 32, 99] ∧
      split_input [97, 98, 32, 99] 2 = gs.map joinSpace) :=
  chunk_length_bound [97, 98, 32, 99] 2 (by decide)

/-- C7 (counterexample): the claim "every chunk produced by the chunker has
non-empty text" fails on input `"a"` with L = 1: the first produced chunk is
the empty string. -/
theorem chunk_nonempty_cex : ¬ (∀ c ∈ split_input [97] 1, c ≠ []) := by decide

/-- C7 (amended): for every input string and every maximum length L ≥ 1, every
chunk other than the first is non-empty, and the first chunk is the empty
string exactly when the input has a first token and that token's byte length
is at least L. -/
theorem chunk_nonempty_amended (s : Str) (L : Nat) (hL : 1 ≤ L) :
    (∀ c ∈ (split_input s L).tail, c ≠ []) ∧
    ((split_input s L).head? = some [] ↔
      split_whitespace s ≠ [] ∧ L ≤ ((split_whitespace s).headD []).length) := by
  cases hws : split_whitespace s with
  | nil =>
    rw [split_input_eq_nil s L hws]
    simp
  | cons w rest =>
    by_cases hw : w.length + 1 ≤ L
    · rw [split_input_eq_fit s L w rest hws hw]
      obtain ⟨gs, heq, hjoin, hne, hgne, hgbd⟩ :=
        splitLoop_spec L rest [w] (w.length + 1) (by simp) (by simp [joinSpace]) (Or.inl hw)
      have htok : ∀ g ∈ gs, ∀ t ∈ g, t ≠ [] := by
        intro g hg t htg
        have hmem : t ∈ gs.flatten := List.mem_flatten.mpr ⟨g, hg, htg⟩
        rw [hjoin] at hmem
        refine split_whitespace_ne_nil s t ?_
        rw [hws]
        simpa using hmem
      have hchunks : ∀ c ∈ splitLoop L rest [w] (w.length + 1), c ≠ [] := by
        intro c hc
        rw [heq] at hc
        obtain ⟨g, hg, rfl⟩ := List.mem_map.mp hc
        exact joinSpace_ne_nil g (hgne g hg) (htok g hg)
      constructor
      · intro c hc
        exact hchunks c (List.mem_of_mem_tail hc)
      · constructor
        · intro hhead
          exfalso
          have : ([] : Str) ∈ splitLoop L rest [w] (w.length + 1) := by
            cases hsp : splitLoop L rest [w] (w.length + 1) with
            | nil => rw [hsp] at hhead; simp at hhead
            | cons c cs => rw [hsp] at hhead; simp at hhead; simp [hsp, hhead]
          exact hchunks [] this rfl
        · rintro ⟨-, hlen⟩
          simp only [List.headD_cons] at hlen
          omega
    · rw [split_input_eq_overflow s L w rest hws (by omega)]
      obtain ⟨gs, heq, hjoin, hne, hgne, hgbd⟩ :=
        splitLoop_spec L rest [w] w.length (by simp) (by simp [joinSpace]) (Or.inr ⟨w, rfl⟩)
      have htok : ∀ g ∈ gs, ∀ t ∈ g, t ≠ [] := by
        intro g hg t htg
        have hmem : t ∈ gs.flatten := List.mem_flatten.mpr ⟨g, hg, htg⟩
        rw [hjoin] at hmem
        refine split_whitespace_ne_nil s t ?_
        rw [hws]
        simpa using hmem
      constructor
      · intro c hc
        simp only [List.tail_cons] at hc
        rw [heq] at hc
        obtain ⟨g, hg, rfl⟩ := List.mem_map.mp hc
        exact joinSpace_ne_nil g (hgne g hg) (htok g hg)
      · simp only [List.head?_cons, List.headD_cons]
        constructor
        · intro _
          exact ⟨by simp, by omega⟩
        · intro _
          trivial

theorem chunk_nonempty_amended_witness :
    (∀ c ∈ (split_input [97, 98, 32, 99] 4).tail, c ≠ []) ∧
    ((split_input [97, 98, 32, 99] 4).head? = some [] ↔
      split_whitespace [97, 98, 32, 99] ≠ [] ∧
      4 ≤ ((split_whitespace [97, 98, 32, 99]).headD []).length) :=
  chunk_nonempty_amended [97, 98, 32, 99] 4 (by decide)

/-! ## Reorder buffer lemmas -/

theorem lookup_cons_self (a : Nat) (v : Frag) (m : List (Nat × Frag)) :
    List.lookup a ((a, v) :: m) = some v := by
  simp [List.lookup_cons]

theorem lookup_cons_ne (k a : Nat) (v : Frag) (m : List (Nat × Frag)) (h : k ≠ a) :
    List.lookup k ((a, v) :: m) = List.lookup k m := by
  have hb : (k == a) = false := by simp [h]
  simp [List.lookup_cons, hb]

theorem lookup_eq_none_iff (m : List (Nat × Frag)) (k : Nat) :
    List.lookup k m = none ↔ ∀ p ∈ m, p.1 ≠ k := by
  induction m with
  | nil => simp
  | cons p m ih =>
    obtain ⟨a, v⟩ := p
    by_cases hak : k = a
    · subst hak
      rw [lookup_cons_self]
      simp
    · rw [lookup_cons_ne _ _ _ _ hak, ih]
      constructor
      · intro h p hp
        rcases List.mem_cons.mp hp with rfl | hp2
        · exact fun hh => hak hh.symm
        · exact h p hp2
      · intro h p hp
        exact h p (List.mem_cons_of_mem _ hp)

theorem lookup_mem {m : List (Nat × Frag)} {k : Nat} {v : Frag}
    (h : List.lookup k m = some v) : (k, v) ∈ m := by
  induction m with
  | nil => simp at h
  | cons p m ih =>
    obtain ⟨a, w⟩ := p
    by_cases hak : k = a
    · subst hak
      rw [lookup_cons_self] at h
      injection h with h
      subst h
      simp
    · rw [lookup_cons_ne _ _ _ _ hak] at h
      exact List.mem_cons_of_mem _ (ih h)

theorem mapErase_eq_self (m : List (Nat × Frag)) (k : Nat) (h : ∀ p ∈ m, p.1 ≠ k) :
    mapErase m k = m :=
  List.filter_eq_self.mpr (fun p hp => by simpa using h p hp)

theorem mapErase_length_lt {m : List (Nat × Frag)} {k : Nat} {v : Frag}
    (h : List.lookup k m = some v) : (mapErase m k).length < m.length := by
  apply List.length_filter_lt_length_iff_exists.mpr
  exact ⟨(k, v), lookup_mem h, by simp⟩

theorem mapErase_keys_nodup {m : List (Nat × Frag)} (k : Nat)
    (h : (m.map Prod.fst).Nodup) : ((mapErase m k).map Prod.fst).Nodup :=
  List.Nodup.sublist (List.Sublist.map Prod.fst (List.filter_sublist m)) h

theorem perm_cons_mapErase {m : List (Nat × Frag)} {k : Nat} {v : Frag}
    (hnd : (m.map Prod.fst).Nodup) (h : List.lookup k m = some v) :
    m.Perm ((k, v) :: mapErase m k) := by
  induction m with
  | nil => simp at h
  | cons p m ih =>
    obtain ⟨a, w⟩ := p
    simp only [List.map_cons, List.nodup_cons] at hnd
    obtain ⟨ha, hnd2⟩ := hnd
    by_cases hak : k = a
    · subst hak
      rw [lookup_cons_self] at h
      injection h with h
      subst h
      have hk : ∀ p ∈ m, p.1 ≠ k := by
        intro p hp hpk
        exact ha (hpk ▸ List.mem_map_of_mem Prod.fst hp)
      have herase : mapErase ((k, w) :: m) k = m := by
        have h2 : mapErase ((k, w) :: m) k = mapErase m k := by
          simp [mapErase, List.filter_cons]
        rw [h2, mapErase_eq_self m k hk]
      rw [herase]
    · rw [lookup_cons_ne _ _ _ _ hak] at h
      have herase : mapErase ((a, w) :: m) k = (a, w) :: mapErase m k := by
        have hne : ((a, w).1 != k) = true := by
          simp
          exact fun hh => hak hh.symm
        simp [mapErase, List.filter_cons, hne]
      rw [herase]
      exact List.Perm.trans (List.Perm.cons (a, w) (ih hnd2 h))
        (List.Perm.swap (k, v) (a, w) (mapErase m k))

theorem drainAux_succ_none {m : List (Nat × Frag)} {n fuel : Nat}
    (h : List.lookup n m = none) : drainAux (fuel + 1) m n = ([], m, n) := by
  simp [drainAux, h]

theorem drainAux_succ_some {m : List (Nat × Frag)} {n fuel : Nat} {b : Frag}
    (h : List.lookup n m = some b) :
    drainAux (fuel + 1) m n =
      ((n, b) :: (drainAux fuel (mapErase m n) (n + 1)).1,
       (drainAux fuel (mapErase m n) (n + 1)).2.1,
       (drainAux fuel (mapErase m n) (n + 1)).2.2) := by
  simp [drainAux, h]

theorem drainAux_next : ∀ (fuel : Nat) (m : List (Nat × Frag)) (n : Nat),
    (drainAux fuel m n).2.2 = n + (drainAux fuel m n).1.length := by
  intro fuel
  induction fuel with
  | zero => intro m n; simp [drainAux]
  | succ fuel ih =>
    intro m n
    cases h : List.lookup n m with
    | none => rw [drainAux_succ_none h]; simp
    | some b =>
      rw [drainAux_succ_some h]
      simp only [List.length_cons]
      rw [ih (mapErase m n) (n + 1)]
      omega

theorem drain_next (m : List (Nat × Frag)) (n : Nat) :
    (drain m n).2.2 = n + (drain m n).1.length :=
  drainAux_next m.length m n

theorem drainAux_sound : ∀ (fuel : Nat) (m : List (Nat × Frag)) (n : Nat),
    m.length ≤ fuel → (m.map Prod.fst).Nodup →
    ((drainAux fuel m n).1.map Prod.fst = List.range' n (drainAux fuel m n).1.length ∧
     List.lookup (drainAux fuel m n).2.2 (drainAux fuel m n).2.1 = none ∧
     ((drainAux fuel m n).1 ++ (drainAux fuel m n).2.1).Perm m ∧
     ((drainAux fuel m n).2.1.map Prod.fst).Nodup) := by
  intro fuel
  induction fuel with
  | zero =>
    intro m n hlen hnd
    have hm : m = [] := List.eq_nil_of_length_eq_zero (Nat.le_zero.mp hlen)
    subst hm
    exact ⟨by simp [drainAux], by simp [drainAux], by simp [drainAux], by simp [drainAux]⟩
  | succ fuel ih =>
    intro m n hlen hnd
    cases h : List.lookup n m with
    | none =>
      rw [drainAux_succ_none h]
      exact ⟨by simp, by simpa using h, by simp, hnd⟩
    | some b =>
      rw [drainAux_succ_some h]
      have hle : (mapErase m n).length ≤ fuel := by
        have := mapErase_length_lt h
        omega
      obtain ⟨ih1, ih2, ih3, ih4⟩ := ih (mapErase m n) (n + 1) hle (mapErase_keys_nodup n hnd)
      refine ⟨?_, ih2, ?_, ih4⟩
      · simp only [List.map_cons, List.length_cons]
        rw [List.range'_succ, ih1]
      · exact List.Perm.trans (List.Perm.cons (n, b) ih3) (perm_cons_mapErase hnd h).symm

theorem drain_sound (m : List (Nat × Frag)) (n : Nat) (hnd : (m.map Prod.fst).Nodup) :
    ((drain m n).1.map Prod.fst = List.range' n (drain m n).1.length ∧
     List.lookup (drain m n).2.2 (drain m n).2.1 = none ∧
     ((drain m n).1 ++ (drain m n).2.1).Perm m ∧
     ((drain m n).2.1.map Prod.fst).Nodup) :=
  drainAux_sound m.length m n (le_refl _) hnd

theorem range_add_range' (n t : Nat) :
    List.range (n + t) = List.range n ++ List.range' n t := by
  induction t with
  | zero => simp
  | succ t ih =>
    have h1 : n + (t + 1) = (n + t) + 1 := rfl
    rw [h1, List.range_succ, ih, List.range'_concat]
    simp [List.append_assoc]

theorem playRun_cons (s : PlayerState) (a : Nat × Frag) (rest : List (Nat × Frag)) :
    playRun s (a :: rest) =
      ((playStep s a).1 ++ (playRun (playStep s a).2 rest).1,
       (playRun (playStep s a).2 rest).2) := rfl

theorem playRun_append (s : PlayerState) (l1 l2 : List (Nat × Frag)) :
    playRun s (l1 ++ l2) =
      ((playRun s l1).1 ++ (playRun (playRun s l1).2 l2).1,
       (playRun (playRun s l1).2 l2).2) := by
  induction l1 generalizing s with
  | nil => simp [playRun]
  | cons a l1 ih =>
    have h1 : playRun s ((a :: l1) ++ l2) = playRun s (a :: (l1 ++ l2)) := rfl
    rw [h1, playRun_cons, ih (playStep s a).2, playRun_cons]
    simp [List.append_assoc]

theorem playStep_next_le (s : PlayerState) (a : Nat × Frag) :
    s.next_index ≤ (playStep s a).2.next_index := by
  have h := drain_next (mapInsert s.pending a.1 a.2) s.next_index
  simp only [playStep]
  omega

theorem playRun_next_le (s : PlayerState) (l : List (Nat × Frag)) :
    s.next_index ≤ (playRun s l).2.next_index := by
  induction l generalizing s with
  | nil => exact le_refl _
  | cons a rest ih =>
    calc s.next_index ≤ (playStep s a).2.next_index := playStep_next_le s a
      _ ≤ (playRun (playStep s a).2 rest).2.next_index := ih _
      _ = (playRun s (a :: rest)).2.next_index := rfl

/-- Invariant of the receive loop: if the already-released list reads exactly
`0, 1, ..., next_index - 1`, the buffer holds no entry for the cursor, and
released-plus-pending is a permutation of the already-processed arrivals `A`,
then the same holds after processing any further arrivals `rest` (with keys
that never repeat across the whole run). -/
theorem playRun_inv : ∀ (rest : List (Nat × Frag)) (s : PlayerState)
    (released A : List (Nat × Frag)),
    ((A ++ rest).map Prod.fst).Nodup →
    released.map Prod.fst = List.range s.next_index →
    List.lookup s.next_index s.pending = none →
    (released ++ s.pending).Perm A →
    ((released ++ (playRun s rest).1).map Prod.fst =
        List.range (playRun s rest).2.next_index ∧
     List.lookup (playRun s rest).2.next_index (playRun s rest).2.pending = none ∧
     ((released ++ (playRun s rest).1) ++ (playRun s rest).2.pending).Perm
        (A ++ rest)) := by
  intro rest
  induction rest with
  | nil =>
    intro s released A hnd h1 h2 h3
    simp only [playRun]
    exact ⟨by simpa using h1, by simpa using h2, by simpa using h3⟩
  | cons a rest ih =>
    intro s released A hnd h1 h2 h3
    obtain ⟨i, b⟩ := a
    have hndA : ((A.map Prod.fst) ++ (i :: rest.map Prod.fst)).Nodup := by
      simpa using hnd
    have hiA : i ∉ A.map Prod.fst := by
      rcases List.nodup_append.mp hndA with ⟨-, -, hdisj⟩
      intro hin
      exact (List.disjoint_left.mp hdisj hin) (by simp)
    have hipend : ∀ p ∈ s.pending, p.1 ≠ i := by
      intro p hp hpi
      apply hiA
      have hpA : p ∈ A := (h3.mem_iff).mp (List.mem_append.mpr (Or.inr hp))
      simpa [hpi] using List.mem_map_of_mem Prod.fst hpA
    have hins : mapInsert s.pending i b = (i, b) :: s.pending := by
      unfold mapInsert
      rw [mapErase_eq_self s.pending i hipend]
    have hpkeys : ((released ++ s.pending).map Prod.fst).Nodup := by
      refine (List.Perm.nodup_iff (List.Perm.map Prod.fst h3)).mpr ?_
      exact (List.nodup_append.mp hndA).1
    have hpnd : (s.pending.map Prod.fst).Nodup := by
      rw [List.map_append] at hpkeys
      exact (List.nodup_append.mp hpkeys).2.1
    have hm1nd : (((i, b) :: s.pending).map Prod.fst).Nodup := by
      simp only [List.map_cons, List.nodup_cons]
      refine ⟨fun hin => ?_, hpnd⟩
      obtain ⟨p, hp, hpe⟩ := List.mem_map.mp hin
      exact hipend p hp hpe
    obtain ⟨hd1, hd2, hd3, hd4⟩ := drain_sound ((i, b) :: s.pending) s.next_index hm1nd
    have hdnext := drain_next ((i, b) :: s.pending) s.next_index
    have hstep : playStep s (i, b) =
        ((drain ((i, b) :: s.pending) s.next_index).1,
         ⟨(drain ((i, b) :: s.pending) s.next_index).2.1,
          (drain ((i, b) :: s.pending) s.next_index).2.2⟩) := by
      simp [playStep, hins]
    set r := drain ((i, b) :: s.pending) s.next_index with hrdef
    have hA1nd : (((A ++ [(i, b)]) ++ rest).map Prod.fst).Nodup := by
      simpa [List.append_assoc] using hnd
    have h1n : (released ++ r.1).map Prod.fst = List.range r.2.2 := by
      rw [List.map_append, h1, hd1, hdnext, range_add_range']
    have h3n : ((released ++ r.1) ++ r.2.1).Perm (A ++ [(i, b)]) := by
      have e1 : (released ++ r.1) ++ r.2.1 = released ++ (r.1 ++ r.2.1) := by
        rw [List.append_assoc]
      rw [e1]
      refine List.Perm.trans (List.Perm.append_left released hd3) ?_
      refine List.Perm.trans List.perm_middle ?_
      refine List.Perm.trans (List.Perm.cons (i, b) h3) ?_
      have hp : (A ++ [(i, b)]).Perm ((i, b) :: (A ++ [])) := List.perm_middle
      simpa using hp.symm
    obtain ⟨g1, g2, g3⟩ :=
      ih ⟨r.2.1, r.2.2⟩ (released ++ r.1) (A ++ [(i, b)]) hA1nd h1n hd2 h3n
    have hrun : playRun s ((i, b) :: rest) =
        (r.1 ++ (playRun ⟨r.2.1, r.2.2⟩ rest).1, (playRun ⟨r.2.1, r.2.2⟩ rest).2) := by
      rw [playRun_cons, hstep]
    rw [hrun]
    refine ⟨?_, g2, ?_⟩
    · simpa [List.append_assoc] using g1
    · simpa [List.append_assoc] using g3

/-- Top-level run invariant: for arrivals with pairwise distinct indices, the
released fragments carry exactly the indices `0, ..., next_index - 1` in
order, the final buffer has no entry for the final cursor, and released plus
still-pending fragments are a permutation of all arrivals. -/
theorem releases_spec (arrivals : List (Nat × Frag))
    (h : (arrivals.map Prod.fst).Nodup) :
    ((releases arrivals).map Prod.fst =
        List.range (play_audio_from_queue arrivals).2.next_index ∧
     List.lookup (play_audio_from_queue arrivals).2.next_index
        (play_audio_from_queue arrivals).2.pending = none ∧
     ((releases arrivals) ++ (play_audio_from_queue arrivals).2.pending).Perm
        arrivals) := by
  have hres := playRun_inv arrivals ⟨[], 0⟩ [] [] (by simpa using h) (by simp)
    (by simp) (by simp)
  simpa [releases, play_audio_from_queue] using hres

/-- When the arrival indices are exactly `0, ..., N-1` (in any order), the run
releases all N fragments, in index order, and ends with cursor N. -/
theorem run_of_perm (N : Nat) (arrivals : List (Nat × Frag))
    (hperm : (arrivals.map Prod.fst).Perm (List.range N)) :
    ((releases arrivals).map Prod.fst = List.range N ∧
     (play_audio_from_queue arrivals).2.next_index = N ∧
     (releases arrivals).Perm arrivals) := by
  have hnd : (arrivals.map Prod.fst).Nodup :=
    (List.Perm.nodup_iff hperm).mpr (List.nodup_range N)
  obtain ⟨h1, h2, h3⟩ := releases_spec arrivals hnd
  have hkeys : ((releases arrivals).map Prod.fst ++
      (play_audio_from_queue arrivals).2.pending.map Prod.fst).Perm
      (List.range N) := by
    have hmap := List.Perm.map Prod.fst h3
    rw [List.map_append] at hmap
    exact hmap.trans hperm
  have hlen : (play_audio_from_queue arrivals).2.next_index +
      (play_audio_from_queue arrivals).2.pending.length = N := by
    have hl := hkeys.length_eq
    simpa [h1] using hl
  have hge : N ≤ (play_audio_from_queue arrivals).2.next_index := by
    by_contra hlt
    push_neg at hlt
    have hmem : (play_audio_from_queue arrivals).2.next_index ∈ List.range N :=
      List.mem_range.mpr hlt
    have hmem2 := (hkeys.mem_iff).mpr hmem
    rcases List.mem_append.mp hmem2 with hin | hin
    · rw [h1] at hin
      exact absurd (List.mem_range.mp hin) (lt_irrefl _)
    · obtain ⟨p, hp, hpe⟩ := List.mem_map.mp hin
      exact (lookup_eq_none_iff _ _).mp h2 p hp hpe
  have hnfN : (play_audio_from_queue arrivals).2.next_index = N := by omega
  have hpendnil : (play_audio_from_queue arrivals).2.pending = [] :=
    List.eq_nil_of_length_eq_zero (by omega)
  refine ⟨by rw [h1, hnfN], hnfN, ?_⟩
  rw [hpendnil] at h3
  simpa using h3

theorem map_fst_eq_pairs (f : Nat → Frag) :
    ∀ (l : List (Nat × Frag)) (ks : List Nat),
    l.map Prod.fst = ks → (∀ p ∈ l, p.2 = f p.1) →
    l = ks.map (fun j => (j, f j)) := by
  intro l
  induction l with
  | nil =>
    intro ks h _
    simp at h
    subst h
    rfl
  | cons p l ih =>
    intro ks h hpay
    obtain ⟨a, v⟩ := p
    cases ks with
    | nil => simp at h
    | cons k ks2 =>
      simp only [List.map_cons, List.cons.injEq] at h
      obtain ⟨hak, hrest⟩ := h
      have hv : v = f a := hpay (a, v) (by simp)
      subst hak
      rw [List.map_cons]
      congr 1
      · rw [hv]
      · exact ih ks2 hrest (fun p hp => hpay p (by simp [hp]))

/-- Full-permutation runs release the arrivals in sorted index order. -/
theorem releases_eq_sorted (N : Nat) (f : Nat → Frag)
    (arrivals : List (Nat × Frag))
    (hperm : (arrivals.map Prod.fst).Perm (List.range N))
    (hpay : ∀ p ∈ arrivals, p.2 = f p.1) :
    releases arrivals = (List.range N).map (fun j => (j, f j)) := by
  obtain ⟨h1, h2, h3⟩ := run_of_perm N arrivals hperm
  exact map_fst_eq_pairs f (releases arrivals) (List.range N) h1
    (fun p hp => hpay p ((h3.mem_iff).mp hp))

/-! ## Reorder loop claims -/

/-- C2: for every N, every payload assignment, and every arrival order whose
indices are exactly a permutation of `0, ..., N-1` (no gaps, no duplicates),
the reorder loop of `play_audio_from_queue` releases the fragments as the
sorted-by-index sequence `0, 1, ..., N-1`; since the right-hand side does not
mention the arrival order, the release sequence is the same for every
arrival permutation. -/
theorem reorder_releases_sorted (N : Nat) (f : Nat → Frag)
    (arrivals : List (Nat × Frag))
    (hperm : (arrivals.map Prod.fst).Perm (List.range N))
    (hpay : ∀ p ∈ arrivals, p.2 = f p.1) :
    releases arrivals = (List.range N).map (fun j => (j, f j)) :=
  releases_eq_sorted N f arrivals hperm hpay

/-- C2 witness (Scenario 1): 4 fragments arriving in order 3, 2, 1, 0 are
released in order 0, 1, 2, 3. -/
theorem reorder_releases_sorted_witness :
    releases [(3, [3]), (2, [2]), (1, [1]), (0, [0])] =
      [(0, [0]), (1, [1]), (2, [2]), (3, [3])] := by
  rw [reorder_releases_sorted 4 (fun j => [j]) [(3, [3]), (2, [2]), (1, [1]), (0, [0])]
    (by decide) (by decide)]
  decide

/-- C3: if some index k never arrives before the channel closes, no fragment
with index greater than k is ever released, even if it arrived. -/
theorem gap_blocks_later_releases (arrivals : List (Nat × Frag)) (k : Nat)
    (hnd : (arrivals.map Prod.fst).Nodup)
    (hgap : k ∉ arrivals.map Prod.fst) :
    ∀ j b, k < j → (j, b) ∉ releases arrivals := by
  intro j b hkj hmem
  obtain ⟨h1, h2, h3⟩ := releases_spec arrivals hnd
  have hj : j ∈ (releases arrivals).map Prod.fst := by
    simpa using List.mem_map_of_mem Prod.fst hmem
  rw [h1] at hj
  have hjlt := List.mem_range.mp hj
  have hk : k ∈ List.range (play_audio_from_queue arrivals).2.next_index :=
    List.mem_range.mpr (by omega)
  rw [← h1] at hk
  obtain ⟨p, hp, hpe⟩ := List.mem_map.mp hk
  have hpA : p ∈ arrivals := (h3.mem_iff).mp (List.mem_append.mpr (Or.inl hp))
  apply hgap
  have hmem2 : p.1 ∈ arrivals.map Prod.fst := List.mem_map_of_mem Prod.fst hpA
  rwa [hpe] at hmem2

/-- C3 witness: index 1 never arrives, so the arrived fragment (2, [7]) is
never released. -/
theorem gap_blocks_later_releases_witness :
    (2, [7]) ∉ releases [(0, [5]), (2, [7])] :=
  gap_blocks_later_releases [(0, [5]), (2, [7])] 1 (by decide) (by decide) 2 [7]
    (by decide)

/-- C4: after every step k of the reorder loop (any prefix of the arrivals,
for arrivals with unique indices): released indices are pairwise distinct
(each index is released at most once); they are exactly `0, ...,
next_index - 1` in this order (every index below the cursor was released
exactly once, the cursor advances by exactly 1 per release and never skips);
the pending buffer never holds an index below the cursor; the cursor equals
the number of releases so far; and the cursor never decreases from one step
to the next. -/
theorem reorder_invariant_steps (arrivals : List (Nat × Frag))
    (hnd : (arrivals.map Prod.fst).Nodup) (k : Nat) :
    ((releasedAfter arrivals k).map Prod.fst).Nodup ∧
    (releasedAfter arrivals k).map Prod.fst =
      List.range (stateAfter arrivals k).next_index ∧
    (∀ p ∈ (stateAfter arrivals k).pending,
      ¬ p.1 < (stateAfter arrivals k).next_index) ∧
    (stateAfter arrivals k).next_index = (releasedAfter arrivals k).length ∧
    (stateAfter arrivals k).next_index ≤ (stateAfter arrivals (k + 1)).next_index := by
  have hndk : ((arrivals.take k).map Prod.fst).Nodup := by
    rw [List.map_take]
    exact List.Nodup.sublist (List.take_sublist _ _) hnd
  obtain ⟨h1, h2, h3⟩ := releases_spec (arrivals.take k) hndk
  simp only [releases] at h1 h3
  simp only [releasedAfter, stateAfter]
  refine ⟨?_, h1, ?_, ?_, ?_⟩
  · rw [h1]
    exact List.nodup_range _
  · intro p hp hlt
    have hkeysnd : (((play_audio_from_queue (arrivals.take k)).1 ++
        (play_audio_from_queue (arrivals.take k)).2.pending).map Prod.fst).Nodup :=
      (List.Perm.nodup_iff (List.Perm.map Prod.fst h3)).mpr hndk
    rw [List.map_append] at hkeysnd
    rcases List.nodup_append.mp hkeysnd with ⟨-, -, hdisj⟩
    have hin : p.1 ∈ (play_audio_from_queue (arrivals.take k)).1.map Prod.fst := by
      rw [h1]
      exact List.mem_range.mpr hlt
    exact (List.disjoint_left.mp hdisj hin) (List.mem_map_of_mem Prod.fst hp)
  · have hl := congrArg List.length h1
    simpa using hl.symm
  · rw [List.take_succ]
    simp only [play_audio_from_queue]
    rw [playRun_append]
    exact playRun_next_le _ _

/-- C4 witness: arrivals (1, [4]) then (0, [6]); after step 1 nothing is
released and index 1 waits in the buffer; after step 2 the cursor is at 2. -/
theorem reorder_invariant_steps_witness :
    ((releasedAfter [(1, [4]), (0, [6])] 1).map Prod.fst).Nodup ∧
    (releasedAfter [(1, [4]), (0, [6])] 1).map Prod.fst =
      List.range (stateAfter [(1, [4]), (0, [6])] 1).next_index ∧
    (∀ p ∈ (stateAfter [(1, [4]), (0, [6])] 1).pending,
      ¬ p.1 < (stateAfter [(1, [4]), (0, [6])] 1).next_index) ∧
    (stateAfter [(1, [4]), (0, [6])] 1).next_index =
      (releasedAfter [(1, [4]), (0, [6])] 1).length ∧
    (stateAfter [(1, [4]), (0, [6])] 1).next_index ≤
      (stateAfter [(1, [4]), (0, [6])] (1 + 1)).next_index :=
  reorder_invariant_steps [(1, [4]), (0, [6])] (by decide) 1

/-! ## Playback event lemmas -/

theorem reported_not_mem (arrivals : List (Nat × Frag)) (dec : Frag → Bool) (i : Nat) :
    PlayerEvent.reported i ∉ playerEvents arrivals dec := by
  intro hmem
  obtain ⟨p, hp, hpe⟩ := List.mem_filterMap.mp hmem
  by_cases hd : dec p.2
  · rw [if_pos hd] at hpe
    exact PlayerEvent.noConfusion (Option.some.inj hpe)
  · rw [if_neg hd] at hpe
    exact Option.noConfusion hpe

theorem played_not_mem_of_dec_false (arrivals : List (Nat × Frag)) (dec : Frag → Bool)
    (i : Nat) (b : Frag) (hdec : dec b = false) :
    PlayerEvent.played i b ∉ playerEvents arrivals dec := by
  intro hmem
  obtain ⟨p, hp, hpe⟩ := List.mem_filterMap.mp hmem
  by_cases hd : dec p.2
  · rw [if_pos hd] at hpe
    have he := Option.some.inj hpe
    injection he with h1 h2
    rw [h2, hdec] at hd
    exact Bool.noConfusion hd
  · rw [if_neg hd] at hpe
    exact Option.noConfusion hpe

theorem filterMap_release_events (f : Nat → Frag) (dec : Frag → Bool) (k : Nat) :
    ∀ (l : List Nat), (∀ j ∈ l, (dec (f j) = false ↔ j = k)) →
    (l.map (fun j => (j, f j))).filterMap
        (fun p => if dec p.2 then some (PlayerEvent.played p.1 p.2) else none) =
      (l.filter (fun j => j != k)).map (fun j => PlayerEvent.played j (f j)) := by
  intro l
  induction l with
  | nil => intro _; rfl
  | cons j l ih =>
    intro h
    have hj := h j (by simp)
    have ihr := ih (fun x hx => h x (by simp [hx]))
    by_cases hd : dec (f j)
    · have hjk : j ≠ k := by
        intro hk
        rw [hj.mpr hk] at hd
        exact Bool.noConfusion hd
      simp [List.filterMap_cons, List.filter_cons, hd, hjk, ihr]
    · have hjk : j = k := hj.mp (by simpa using hd)
      subst hjk
      simp [List.filterMap_cons, List.filter_cons, hd, ihr]

/-! ## Playback claims -/

/-- C9 (counterexample): with 5 in-order fragments and a decoder that fails
exactly on the second one, the run's event trace contains no report of any
kind — the claim that the decoding failure "is reported" is false: the `Err`
case of `Decoder::new_mp3` has no branch, so the failure is silent. -/
theorem decode_failure_unreported_cex :
    ¬ ((playerEvents [(0, [1]), (1, [2]), (2, [3]), (3, [4]), (4, [5])]
        (fun b => b != [2])).any isReportedEvent = true) := by decide

/-- C9 (amended): a decoding failure on one released fragment is silently
skipped (no report event exists in the trace), playback continues with every
other released fragment in order, and the cursor still advances past the
failed index to N. -/
theorem decode_failure_skip (N k : Nat) (f : Nat → Frag) (dec : Frag → Bool)
    (hk : k < N) (hdec : ∀ j ∈ List.range N, (dec (f j) = false ↔ j = k)) :
    playerEvents ((List.range N).map (fun j => (j, f j))) dec =
      ((List.range N).filter (fun j => j != k)).map
        (fun j => PlayerEvent.played j (f j)) ∧
    (play_audio_from_queue ((List.range N).map (fun j => (j, f j)))).2.next_index = N ∧
    ∀ i, PlayerEvent.reported i ∉
      playerEvents ((List.range N).map (fun j => (j, f j))) dec := by
  have hperm : (((List.range N).map (fun j => (j, f j))).map Prod.fst).Perm
      (List.range N) := by
    rw [List.map_map]
    have he : (Prod.fst ∘ fun j : Nat => (j, f j)) = id := rfl
    rw [he, List.map_id]
  have hrel : releases ((List.range N).map (fun j => (j, f j))) =
      (List.range N).map (fun j => (j, f j)) :=
    releases_eq_sorted N f _ hperm (by simp)
  refine ⟨?_, (run_of_perm N _ hperm).2.1, fun i => reported_not_mem _ _ i⟩
  rw [playerEvents, hrel]
  exact filterMap_release_events f dec k (List.range N) hdec

/-- C9 witness (Scenario 4): 5 in-order fragments, decode fails on fragment 1
only; the other 4 play in order, nothing is reported, and the cursor reaches 5. -/
theorem decode_failure_skip_witness :
    playerEvents ((List.range 5).map (fun j => (j, [j + 1])))
        (fun b => b != [2]) =
      ((List.range 5).filter (fun j => j != 1)).map
        (fun j => PlayerEvent.played j [j + 1]) ∧
    (play_audio_from_queue ((List.range 5).map (fun j => (j, [j + 1])))).2.next_index = 5 ∧
    PlayerEvent.reported 1 ∉
      playerEvents ((List.range 5).map (fun j => (j, [j + 1]))) (fun b => b != [2]) := by
  have h := decode_failure_skip 5 1 (fun j => [j + 1]) (fun b => b != [2])
    (by decide) (by decide)
  exact ⟨h.1, h.2.1, h.2.2 1⟩

/-- C10: the Streaming Player's behaviour is independent of the configured
response format: the playback branch of `main` never passes the format to the
consumer, so two runs that differ only in the requested format (even ones
whose request strings differ) perform identical steps on identical channel
contents; every fragment is decoded as MP3, so a released fragment whose bytes
the MP3 decoder rejects produces no playback event and no report — it is
silently skipped. -/
theorem player_format_independent :
    (∀ (f1 f2 : Option ResponseFormat) (arrivals : List (Nat × Frag))
        (dec : Frag → Bool),
        output_file_format f1 ≠ output_file_format f2 →
        mainPlayer f1 arrivals dec = mainPlayer f2 arrivals dec) ∧
    (∀ (arrivals : List (Nat × Frag)) (dec : Frag → Bool) (i : Nat) (b : Frag),
        dec b = false → PlayerEvent.played i b ∉ playerEvents arrivals dec) ∧
    (∀ (arrivals : List (Nat × Frag)) (dec : Frag → Bool) (i : Nat),
        PlayerEvent.reported i ∉ playerEvents arrivals dec) :=
  ⟨fun _ _ _ _ _ => rfl,
   fun arrivals dec i b h => played_not_mem_of_dec_false arrivals dec i b h,
   fun arrivals dec i => reported_not_mem arrivals dec i⟩

/-- C10 witness: Opus- and Mp3-configured runs (whose request strings differ)
behave identically on the same channel contents, and a fragment the decoder
rejects is neither played nor reported. -/
theorem player_format_independent_witness :
    mainPlayer (some ResponseFormat.Opus) [(0, [9])] (fun _ => false) =
      mainPlayer (some ResponseFormat.Mp3) [(0, [9])] (fun _ => false) ∧
    PlayerEvent.played 0 [9] ∉ playerEvents [(0, [9])] (fun _ => false) ∧
    PlayerEvent.reported 0 ∉ playerEvents [(0, [9])] (fun _ => false) :=
  ⟨player_format_independent.1 (some ResponseFormat.Opus) (some ResponseFormat.Mp3)
      [(0, [9])] (fun _ => false) (by decide),
   player_format_independent.2.1 [(0, [9])] (fun _ => false) 0 [9] rfl,
   player_format_independent.2.2 [(0, [9])] (fun _ => false) 0⟩

/-! ## Writer lemmas and claims -/

theorem writer_aux (writeOk : Nat → Bool) :
    ∀ (arrivals : List (Nat × Frag)) (pos j : Nat), j < arrivals.length →
    (∀ i, i < j → writeOk (pos + i) = true) → writeOk (pos + j) = false →
    audio_to_output_file arrivals pos writeOk =
      (((arrivals.take j).map Prod.snd).flatten, WriterOutcome.fatal) := by
  intro arrivals
  induction arrivals with
  | nil =>
    intro pos j hj _ _
    simp at hj
  | cons a rest ih =>
    intro pos j hj hpre hfail
    obtain ⟨idx, b⟩ := a
    cases j with
    | zero =>
      have h0 : writeOk pos = false := by simpa using hfail
      simp [audio_to_output_file, h0]
    | succ j =>
      have h0 : writeOk pos = true := by simpa using hpre 0 (Nat.succ_pos j)
      have hpre2 : ∀ i, i < j → writeOk (pos + 1 + i) = true := by
        intro i hi
        have h := hpre (i + 1) (by omega)
        have he : pos + 1 + i = pos + (i + 1) := by omega
        rw [he]
        exact h
      have hfail2 : writeOk (pos + 1 + j) = false := by
        have he : pos + 1 + j = pos + (j + 1) := by omega
        rw [he]
        exact hfail
      have ihr := ih (pos + 1) j (by simpa using hj) hpre2 hfail2
      simp [audio_to_output_file, h0, ihr]

/-- C8: in every Sequential Writer run in which the j-th write fails (0-based,
with all earlier writes succeeding), the run ends fatal and the output file
contains exactly the concatenated bytes of the fragments written before the
failing write; nothing further is written. -/
theorem writer_fatal_stops (arrivals : List (Nat × Frag)) (writeOk : Nat → Bool)
    (j : Nat) (hj : j < arrivals.length)
    (hpre : ∀ i, i < j → writeOk i = true) (hfail : writeOk j = false) :
    audio_to_output_file arrivals 0 writeOk =
      (((arrivals.take j).map Prod.snd).flatten, WriterOutcome.fatal) := by
  refine writer_aux writeOk arrivals 0 j hj (fun i hi => ?_) (by simpa using hfail)
  simpa using hpre i hi

/-- C8 witness (Scenario 3): the first write succeeds and the second fails,
so the run is fatal and the file contains exactly the bytes of the first
fragment. -/
theorem writer_fatal_stops_witness :
    audio_to_output_file [(0, [1]), (1, [2])] 0 (fun i => i == 0) =
      ((([(0, ([1] : Frag)), (1, [2])].take 1).map Prod.snd).flatten,
        WriterOutcome.fatal) := by
  rw [writer_fatal_stops [(0, [1]), (1, [2])] (fun i => i == 0) 1 (by decide)
    (by decide) (by decide)]

/-- C1 (code bug evaluation): `audio_to_output_file` ignores the fragment
index and appends payloads in channel-arrival order.  When fragment 1 (bytes
[10]) arrives before fragment 0 (bytes [20]), the file contains [10, 20] —
arrival order — while the reorder loop used by the playback path would deliver
the same channel contents as [(0, [20]), (1, [10])], i.e. index order with
bytes [20, 10]. -/
theorem writer_ignores_index_eval :
    audio_to_output_file [(1, [10]), (0, [20])] 0 (fun _ => true) =
      ([10, 20], WriterOutcome.ok) ∧
    releases [(1, [10]), (0, [20])] = [(0, [20]), (1, [10])] := by decide

end Sayit
